import Mathlib

/-!
Verification of the lemma-based IDF-weighted containment engine and the
boolean multi-term search of the quran-analyzer backend (src/roots/backend/app.py).

The corpus is a list of morphology segment records; the build step
(app.py, build_similarity_engine) turns it into frozen in-memory tables,
over which find_related_verses and search_words operate.  The real number
returned by math.log is abstracted as a parameter lg : Q -> Q of the build;
weights are exact rationals.
-/

namespace QuranAnalyzer

/-- A verse key (chapter, verse), as stored in the morphology table. -/
abbrev VerseKey := Int × Int

/-- One morphology segment row: the token columns may be NULL (none);
the SQL filters in the build also drop empty strings. -/
structure Segment where
  chapter : Int
  verse : Int
  lem : Option String
  root : Option String
  form : Option String
deriving DecidableEq

/-- A token column is present when it is non-NULL and non-empty, matching
the SQL condition col IS NOT NULL AND col != the empty string. -/
def getTok : Option String → Option String
  | some s => if s = "" then none else some s
  | none => none

/-- Distinct (verse, token) rows of the corpus for one token column. -/
def pairsBy (c : List Segment) (f : Segment → Option String) : Finset (VerseKey × String) :=
  (c.filterMap (fun s => (getTok (f s)).map (fun l => (((s.chapter, s.verse) : VerseKey), l)))).toFinset

/-- Distinct (verse, lemma) rows of the corpus: SELECT DISTINCT chapter,
verse, lemma_buckwalter WHERE present. -/
def lemmaPairs (c : List Segment) : Finset (VerseKey × String) :=
  pairsBy c (fun s => s.lem)

/-- Distinct (verse, root) rows of the corpus. -/
def rootPairs (c : List Segment) : Finset (VerseKey × String) :=
  pairsBy c (fun s => s.root)

/-- Distinct (verse, form) rows of the corpus. -/
def formPairs (c : List Segment) : Finset (VerseKey × String) :=
  pairsBy c (fun s => s.form)

/-- Distinct (lemma, root) rows from segments carrying both tokens. -/
def lrPairs (c : List Segment) : Finset (String × String) :=
  (c.filterMap (fun s =>
    match getTok s.lem, getTok s.root with
    | some l, some r => some (l, r)
    | _, _ => none)).toFinset

/-- The token set of a verse in a (verse, token) relation: the per-verse
profile built by the add loops. -/
def pairsVerseSet (ps : Finset (VerseKey × String)) (k : VerseKey) : Finset String :=
  (ps.filter (fun p => p.1 = k)).image Prod.snd

/-- The verse set of a token in a (verse, token) relation: the inverted
index entry; its cardinality is the document frequency counter. -/
def pairsTokenVerses (ps : Finset (VerseKey × String)) (t : String) : Finset VerseKey :=
  (ps.filter (fun p => p.2 = t)).image Prod.fst

/-- All tokens occurring in a (verse, token) relation: the key set of the
document-frequency dictionary. -/
def pairsTokens (ps : Finset (VerseKey × String)) : Finset String :=
  ps.image Prod.snd

/-- All verses occurring in a (verse, token) relation: the key set of the
per-verse profile dictionary. -/
def pairsVerses (ps : Finset (VerseKey × String)) : Finset VerseKey :=
  ps.image Prod.fst

/-- The frozen state produced by the build_similarity_engine step: IDF
dictionaries (none models an absent key), per-verse lemma/root profiles
(empty set models an absent key), the three inverted indexes (defaultdict
of set), and the lemma-to-root co-occurrence map. -/
structure Engine where
  lemma_idf : String → Option ℚ
  root_idf : String → Option ℚ
  form_idf : String → Option ℚ
  verse_lemmas : VerseKey → Finset String
  verse_roots : VerseKey → Finset String
  lemma_inv : String → Finset VerseKey
  root_inv : String → Finset VerseKey
  form_inv : String → Finset VerseKey
  lemma_roots : String → Finset String

/-- The engine left behind when the build bails out on a corpus with no
lemma and no root rows: every table stays empty. -/
def emptyEngine : Engine where
  lemma_idf := fun _ => none
  root_idf := fun _ => none
  form_idf := fun _ => none
  verse_lemmas := fun _ => ∅
  verse_roots := fun _ => ∅
  lemma_inv := fun _ => ∅
  root_inv := fun _ => ∅
  form_inv := fun _ => ∅
  lemma_roots := fun _ => ∅

/-- Number of verses with at least one lemma or root token: the build
computes total_verses as the size of the union of the two profile key
sets. -/
def totalVerses (c : List Segment) : ℕ :=
  (pairsVerses (lemmaPairs c) ∪ pairsVerses (rootPairs c)).card

/-- One IDF dictionary computed from a (verse, token) relation: keys are
the observed tokens, values are lg of N over the document frequency. -/
def idfTable (lg : ℚ → ℚ) (c : List Segment) (ps : Finset (VerseKey × String)) :
    String → Option ℚ :=
  fun t =>
    if t ∈ pairsTokens ps then
      some (lg ((totalVerses c : ℚ) / ((pairsTokenVerses ps t).card : ℚ)))
    else none

/-- The build step (build_similarity_engine): consumes the corpus once and
produces the frozen engine state; lg abstracts math.log.  If the corpus
has no lemma and no root rows the build returns early, leaving every
table empty (forms included). -/
def buildEngine (lg : ℚ → ℚ) (c : List Segment) : Engine :=
  if lemmaPairs c = ∅ ∧ rootPairs c = ∅ then emptyEngine
  else
    { lemma_idf := idfTable lg c (lemmaPairs c)
      root_idf := idfTable lg c (rootPairs c)
      form_idf := idfTable lg c (formPairs c)
      verse_lemmas := fun k => pairsVerseSet (lemmaPairs c) k
      verse_roots := fun k => pairsVerseSet (rootPairs c) k
      lemma_inv := fun t => pairsTokenVerses (lemmaPairs c) t
      root_inv := fun t => pairsTokenVerses (rootPairs c) t
      form_inv := fun t => pairsTokenVerses (formPairs c) t
      lemma_roots := fun l => ((lrPairs c).filter (fun p => p.1 = l)).image Prod.snd }

/-- Root-only matches get half credit versus lemma matches. -/
def rootDiscount : ℚ := 1 / 2

/-- Lemmas shared between a candidate and the query. -/
def sharedLemmasOf (e : Engine) (qL : Finset String) (cand : VerseKey) : Finset String :=
  e.verse_lemmas cand ∩ qL

/-- Roots already covered by the shared lemmas via the lemma-to-root map. -/
def coveredRootsOf (e : Engine) (sL : Finset String) : Finset String :=
  sL.biUnion e.lemma_roots

/-- Shared roots not already explained by a shared lemma. -/
def extraRootsOf (e : Engine) (qL qR : Finset String) (cand : VerseKey) : Finset String :=
  (e.verse_roots cand ∩ qR) \ coveredRootsOf e (sharedLemmasOf e qL cand)

/-- Sum of lemma IDF weights over a lemma set; an absent key weighs 0
(the dict get with default 0). -/
def lemmaWeight (e : Engine) (s : Finset String) : ℚ :=
  s.sum (fun l => (e.lemma_idf l).getD 0)

/-- Sum of root IDF weights over a root set; an absent key weighs 0. -/
def rootWeight (e : Engine) (s : Finset String) : ℚ :=
  s.sum (fun r => (e.root_idf r).getD 0)

/-- Shared weight of a candidate: full credit for shared lemmas plus
discounted credit for extra shared roots. -/
def sharedWeightOf (e : Engine) (qL qR : Finset String) (cand : VerseKey) : ℚ :=
  lemmaWeight e (sharedLemmasOf e qL cand) + rootDiscount * rootWeight e (extraRootsOf e qL qR cand)

/-- Total lemma weight of a candidate over its full lemma set. -/
def candTotalOf (e : Engine) (cand : VerseKey) : ℚ :=
  lemmaWeight e (e.verse_lemmas cand)

/-- Shared roots reported for display: roots reached from shared lemmas
that the candidate actually has, together with the extra shared roots. -/
def displayRootsOf (e : Engine) (qL qR : Finset String) (cand : VerseKey) : Finset String :=
  ((sharedLemmasOf e qL cand).biUnion (fun l => e.lemma_roots l ∩ e.verse_roots cand)) ∪
    extraRootsOf e qL qR cand

/-- Score one candidate, or drop it: candidates without a lemma profile,
with zero shared weight, or with zero total weight are skipped
(the three continue statements of the scoring loop). -/
def scoreCandidate (e : Engine) (qL qR : Finset String) (cand : VerseKey) :
    Option (ℚ × ℚ × VerseKey × Finset String) :=
  if e.verse_lemmas cand = ∅ then none
  else
    let sw := sharedWeightOf e qL qR cand
    if sw = 0 then none
    else
      let ct := candTotalOf e cand
      if ct = 0 then none
      else some (min (sw / ct) 1, sw, cand, displayRootsOf e qL qR cand)

/-- Adjacent verses of the query: same chapter, verse number within the
closed window query-2 .. query+2 (the Python set built from range(-2, 3)). -/
def adjacentSet (surah ayah : Int) : Finset VerseKey :=
  ((List.range 5).map (fun d : ℕ => ((surah, ayah + (d : Int) - 2) : VerseKey))).toFinset

/-- Lexicographic order on verse keys, used to enumerate a Python set
deterministically (Python iterates hash sets in an unspecified order; the
specification leaves that order free, so any enumeration is faithful). -/
def keyLE (a b : VerseKey) : Prop :=
  a.1 < b.1 ∨ (a.1 = b.1 ∧ a.2 ≤ b.2)

instance : DecidableRel keyLE := fun a b => by
  unfold keyLE
  exact inferInstance

instance : IsTrans VerseKey keyLE where
  trans := by
    rintro ⟨a1, a2⟩ ⟨b1, b2⟩ ⟨c1, c2⟩ hab hbc
    rcases hab with h | ⟨h, h2⟩ <;> rcases hbc with h' | ⟨h', h2'⟩ <;>
      simp only [keyLE] at * <;> omega

instance : IsAntisymm VerseKey keyLE where
  antisymm := by
    rintro ⟨a1, a2⟩ ⟨b1, b2⟩ hab hba
    rcases hab with h | ⟨h, h2⟩ <;> rcases hba with h' | ⟨h', h2'⟩ <;>
      simp only [Prod.mk.injEq] <;> omega

instance : IsTotal VerseKey keyLE where
  total := by
    rintro ⟨a1, a2⟩ ⟨b1, b2⟩
    simp only [keyLE]
    omega

/-- Deterministic enumeration of a multiset of verse keys. -/
def sortKeys (m : Multiset VerseKey) : List VerseKey :=
  Quot.liftOn m (fun l => l.insertionSort keyLE) fun _ _ h =>
    List.eq_of_perm_of_sorted
      ((List.perm_insertionSort _ _).trans (h.trans (List.perm_insertionSort _ _).symm))
      (List.sorted_insertionSort _ _) (List.sorted_insertionSort _ _)

/-- Deterministic enumeration of a set of verse keys. -/
def enumKeys (s : Finset VerseKey) : List VerseKey :=
  sortKeys s.val

/-- Sort relation of the result list: containment descending, ties by
shared weight descending (the Python sort key (-c, -sw)). -/
def relatedLE (a b : ℚ × ℚ × VerseKey × Finset String) : Prop :=
  b.1 < a.1 ∨ (a.1 = b.1 ∧ b.2.1 ≤ a.2.1)

instance : DecidableRel relatedLE := fun a b => by
  unfold relatedLE
  exact inferInstance

instance : IsTrans (ℚ × ℚ × VerseKey × Finset String) relatedLE where
  trans := by
    rintro a b c (h | ⟨h, h2⟩) (h' | ⟨h', h2'⟩)
    · exact Or.inl (h'.trans h)
    · exact Or.inl (h' ▸ h)
    · exact Or.inl (h ▸ h')
    · exact Or.inr ⟨h.trans h', h2'.trans h2⟩

instance : IsTotal (ℚ × ℚ × VerseKey × Finset String) relatedLE where
  total := by
    intro a b
    unfold relatedLE
    rcases lt_trichotomy a.1 b.1 with h | h | h
    · exact Or.inr (Or.inl h)
    · rcases le_total a.2.1 b.2.1 with h2 | h2
      · exact Or.inr (Or.inr ⟨h.symm, h2⟩)
      · exact Or.inl (Or.inr ⟨h, h2⟩)
    · exact Or.inl (Or.inl h)

/-- The containment similarity query (find_related_verses): gather
candidates through both inverted indexes, drop the query verse and its
adjacent verses, score the rest, sort, truncate to the limit. -/
def find_related_verses (e : Engine) (surah ayah : Int) (limit : Nat) :
    List (ℚ × ℚ × VerseKey × Finset String) :=
  let qk : VerseKey := (surah, ayah)
  let qL := e.verse_lemmas qk
  let qR := e.verse_roots qk
  if qL = ∅ then []
  else
    let candidates := ((qL.biUnion e.lemma_inv ∪ qR.biUnion e.root_inv).erase qk) \
      adjacentSet surah ayah
    let scored := (enumKeys candidates).filterMap (scoreCandidate e qL qR)
    (scored.insertionSort relatedLE).take limit

/-- The kind an input term resolved to, in priority order. -/
inductive SearchType
  | lem
  | root
  | form
deriving DecidableEq

/-- One input term of the multi-word search: optional lemma, root and form
tokens plus a display string. -/
structure TermSpec where
  lemma_bw : Option String
  root_bw : Option String
  form_bw : Option String
  display_arabic : String
deriving DecidableEq

/-- One resolved term as echoed back in the response. -/
structure ResolvedTerm where
  display_arabic : String
  search_type : SearchType
  search_key : String
deriving DecidableEq

/-- Truthiness plus index membership: the token counts only when present,
non-empty, and a key of the inverted index (keys of the defaultdict are
exactly the tokens with a non-empty verse set). -/
def tokHit (inv : String → Finset VerseKey) (tok : Option String) : Option String :=
  match getTok tok with
  | some s => if (inv s).Nonempty then some s else none
  | none => none

/-- Per-term resolution, first match wins: lemma, then root, then form. -/
def resolveTerm (e : Engine) (t : TermSpec) : Option (ResolvedTerm × Finset VerseKey) :=
  match tokHit e.lemma_inv t.lemma_bw with
  | some l => some (⟨t.display_arabic, SearchType.lem, l⟩, e.lemma_inv l)
  | none =>
    match tokHit e.root_inv t.root_bw with
    | some r => some (⟨t.display_arabic, SearchType.root, r⟩, e.root_inv r)
    | none =>
      match tokHit e.form_inv t.form_bw with
      | some f => some (⟨t.display_arabic, SearchType.form, f⟩, e.form_inv f)
      | none => none

/-- Resolve all terms in order; none models the early return taken as soon
as one term resolves nowhere. -/
def resolveAll (e : Engine) : List TermSpec → Option (List (ResolvedTerm × Finset VerseKey))
  | [] => some []
  | t :: ts =>
    match resolveTerm e t with
    | none => none
    | some rc => (resolveAll e ts).map (fun rest => rc :: rest)

/-- Left fold of set intersection, seeded with the first candidate set. -/
def intersectAll : List (Finset VerseKey) → Finset VerseKey
  | [] => ∅
  | s :: rest => rest.foldl (fun acc x => acc ∩ x) s

/-- Removal of the optional query verse from the intersected result set. -/
def postExclude (s : Finset VerseKey) : Option VerseKey → Finset VerseKey
  | some q => s.erase q
  | none => s

/-- Contribution of one resolved term to a result score: full IDF for a
lemma, discounted IDF for a root or form; absent keys weigh 0. -/
def termScore (e : Engine) (r : ResolvedTerm) : ℚ :=
  match r.search_type with
  | SearchType.lem => (e.lemma_idf r.search_key).getD 0
  | SearchType.root => rootDiscount * (e.root_idf r.search_key).getD 0
  | SearchType.form => rootDiscount * (e.form_idf r.search_key).getD 0

/-- The response of the multi-word search: resolved terms, scored results
(empty in count-only mode), and the pre-truncation match count. -/
structure SearchResult where
  terms_used : List ResolvedTerm
  results : List (ℚ × VerseKey)
  total_found : ℕ
deriving DecidableEq

/-- Sort relation of search results: score descending. -/
def scoreLE (a b : ℚ × VerseKey) : Prop :=
  b.1 ≤ a.1

instance : DecidableRel scoreLE := fun a b => by
  unfold scoreLE
  exact inferInstance

instance : IsTrans (ℚ × VerseKey) scoreLE where
  trans := fun _ _ _ h h' => le_trans h' h

instance : IsTotal (ℚ × VerseKey) scoreLE where
  total := fun a b => (le_total b.1 a.1).imp id id

/-- The multi-word AND search (search_words): resolve every term, intersect
the candidate sets, optionally drop the query verse, count, and unless in
count-only mode score and rank the matches.  An empty term list is the
HTTP 400 path, modelled as none; the limit is clamped into 1..50 as the
route does on entry. -/
def search_words (e : Engine) (terms : List TermSpec) (limit : ℕ)
    (query_verse : Option VerseKey) (count_only : Bool) : Option SearchResult :=
  let lim := min (max 1 limit) 50
  if terms = [] then none
  else some (
    match resolveAll e terms with
    | none => ⟨[], [], 0⟩
    | some rcs =>
      let resolved := rcs.map Prod.fst
      let result_set := postExclude (intersectAll (rcs.map Prod.snd)) query_verse
      let total_found := result_set.card
      if count_only then ⟨resolved, [], total_found⟩
      else if result_set = ∅ then ⟨resolved, [], 0⟩
      else
        let score := resolved.foldl (fun acc r => acc + termScore e r) 0
        let scored := (enumKeys result_set).map (fun k => (score, k))
        ⟨resolved, (scored.insertionSort scoreLE).take lim, total_found⟩)

/-! ### Spec-side reconstructions, straight from the raw corpus

The specification asks for N and df to be reconstructed independently of
the build; these definitions walk the raw segment list directly. -/

/-- Number of distinct verses carrying at least one lemma or root token,
recomputed from the raw corpus (union of contributing verses, not a sum). -/
def nSpec (c : List Segment) : ℕ :=
  ((c.filter (fun s => getTok s.lem ≠ none ∨ getTok s.root ≠ none)).map
    (fun s => ((s.chapter, s.verse) : VerseKey))).dedup.length

/-- Document frequency of a lemma token, recomputed from the raw corpus:
the number of distinct verses containing it. -/
def dfLemmaSpec (c : List Segment) (t : String) : ℕ :=
  ((c.filter (fun s => getTok s.lem = some t)).map
    (fun s => ((s.chapter, s.verse) : VerseKey))).dedup.length

/-- Document frequency of a root token, recomputed from the raw corpus. -/
def dfRootSpec (c : List Segment) (t : String) : ℕ :=
  ((c.filter (fun s => getTok s.root = some t)).map
    (fun s => ((s.chapter, s.verse) : VerseKey))).dedup.length

/-- Document frequency of a form token, recomputed from the raw corpus. -/
def dfFormSpec (c : List Segment) (t : String) : ℕ :=
  ((c.filter (fun s => getTok s.form = some t)).map
    (fun s => ((s.chapter, s.verse) : VerseKey))).dedup.length

/-! ### Toy engines for the worked example of the specification -/

/-- Toy state realising the worked example literally: verses (2,255) and
(2,256) both carry lemma malik with IDF 1.2, verse (2,255) additionally
carries root mlk, and (2,256) has no root at all. -/
def toyEngineA : Engine where
  lemma_idf := fun t => if t = "malik" then some (6/5 : ℚ) else none
  root_idf := fun t => if t = "mlk" then some (9/10 : ℚ) else none
  form_idf := fun _ => none
  verse_lemmas := fun k => if k = (2, 255) ∨ k = (2, 256) then {"malik"} else ∅
  verse_roots := fun k => if k = (2, 255) then {"mlk"} else ∅
  lemma_inv := fun t => if t = "malik" then {(2, 255), (2, 256)} else ∅
  root_inv := fun t => if t = "mlk" then {(2, 255)} else ∅
  form_inv := fun _ => ∅
  lemma_roots := fun l => if l = "malik" then {"mlk"} else ∅

/-- The same toy state with the second verse moved outside the adjacency
window: (2,260) instead of (2,256). -/
def toyEngineB : Engine where
  lemma_idf := fun t => if t = "malik" then some (6/5 : ℚ) else none
  root_idf := fun t => if t = "mlk" then some (9/10 : ℚ) else none
  form_idf := fun _ => none
  verse_lemmas := fun k => if k = (2, 255) ∨ k = (2, 260) then {"malik"} else ∅
  verse_roots := fun k => if k = (2, 255) then {"mlk"} else ∅
  lemma_inv := fun t => if t = "malik" then {(2, 255), (2, 260)} else ∅
  root_inv := fun t => if t = "mlk" then {(2, 255)} else ∅
  form_inv := fun _ => ∅
  lemma_roots := fun l => if l = "malik" then {"mlk"} else ∅

/-- Toy state for the search engine: one lemma token a contained in two
verses, carrying no IDF entry. -/
def toyEngineC : Engine where
  lemma_idf := fun _ => none
  root_idf := fun _ => none
  form_idf := fun _ => none
  verse_lemmas := fun _ => ∅
  verse_roots := fun _ => ∅
  lemma_inv := fun t => if t = "a" then {(1, 1), (1, 2)} else ∅
  root_inv := fun _ => ∅
  form_inv := fun _ => ∅
  lemma_roots := fun _ => ∅

/-- A search term whose lemma token is a. -/
def toyTerm : TermSpec where
  lemma_bw := some "a"
  root_bw := none
  form_bw := none
  display_arabic := "d"

/-- A search term that resolves in no index of toyEngineC. -/
def toyTermMissing : TermSpec where
  lemma_bw := some "zz"
  root_bw := none
  form_bw := none
  display_arabic := "m"

/-- A small corpus with a single lemma-bearing segment. -/
def toyCorpus : List Segment :=
  [⟨1, 1, some "a", none, none⟩]

/-- A corpus where form x occurs in a verse with no lemma or root token
and also in a lemma-bearing verse: its document frequency (2) exceeds the
number of verses counted in N (1). -/
def toyCorpusForm : List Segment :=
  [⟨1, 1, none, none, some "x"⟩, ⟨1, 2, some "a", none, some "x"⟩]

/-! ### Basic facts about the containment pipeline -/

theorem sortKeys_coe (m : Multiset VerseKey) : (sortKeys m : Multiset VerseKey) = m := by
  refine Quot.inductionOn m (fun l => ?_)
  exact Quot.sound (List.perm_insertionSort _ _)

/-- Enumeration yields the elements of the set. -/
theorem enumKeys_coe (s : Finset VerseKey) : (enumKeys s : Multiset VerseKey) = s.val :=
  sortKeys_coe s.val

theorem mem_enumKeys (s : Finset VerseKey) (a : VerseKey) : a ∈ enumKeys s ↔ a ∈ s := by
  rw [← Multiset.mem_coe, enumKeys_coe]
  rfl

theorem enumKeys_nodup (s : Finset VerseKey) : (enumKeys s).Nodup := by
  have := s.nodup
  rw [← enumKeys_coe s] at this
  exact this

theorem enumKeys_length (s : Finset VerseKey) : (enumKeys s).length = s.card := by
  have := congrArg Multiset.card (enumKeys_coe s)
  simpa using this

theorem mem_adjacentSet (surah ayah : Int) (p : VerseKey) :
    p ∈ adjacentSet surah ayah ↔ p.1 = surah ∧ ayah - 2 ≤ p.2 ∧ p.2 ≤ ayah + 2 := by
  simp only [adjacentSet, List.mem_toFinset, List.mem_map, List.mem_range]
  constructor
  · rintro ⟨d, hd, rfl⟩
    refine ⟨rfl, ?_, ?_⟩ <;> dsimp only <;> omega
  · rintro ⟨h1, h2, h3⟩
    refine ⟨(p.2 - ayah + 2).toNat, ?_, ?_⟩
    · omega
    · obtain ⟨p1, p2⟩ := p
      dsimp only at h1 h2 h3 ⊢
      rw [Prod.mk.injEq]
      constructor <;> omega

theorem scoreCandidate_some (e : Engine) (qL qR : Finset String) (cand : VerseKey)
    (x : ℚ × ℚ × VerseKey × Finset String)
    (h : scoreCandidate e qL qR cand = some x) :
    x.2.2.1 = cand ∧
      x.2.1 = sharedWeightOf e qL qR cand ∧
      x.1 = min (sharedWeightOf e qL qR cand / candTotalOf e cand) 1 ∧
      sharedWeightOf e qL qR cand ≠ 0 ∧
      candTotalOf e cand ≠ 0 ∧
      e.verse_lemmas cand ≠ ∅ := by
  simp only [scoreCandidate] at h
  split_ifs at h with h1 h2 h3
  injection h with h4
  subst h4
  exact ⟨rfl, rfl, rfl, h2, h3, h1⟩

theorem mem_find_related (e : Engine) (surah ayah : Int) (limit : Nat)
    (x : ℚ × ℚ × VerseKey × Finset String)
    (hx : x ∈ find_related_verses e surah ayah limit) :
    ∃ cand ∈ (((e.verse_lemmas (surah, ayah)).biUnion e.lemma_inv ∪
        (e.verse_roots (surah, ayah)).biUnion e.root_inv).erase (surah, ayah)) \
        adjacentSet surah ayah,
      scoreCandidate e (e.verse_lemmas (surah, ayah)) (e.verse_roots (surah, ayah)) cand
        = some x := by
  simp only [find_related_verses] at hx
  split_ifs at hx with h1
  · cases hx
  · have hx1 := List.mem_of_mem_take hx
    have hx2 := (List.perm_insertionSort relatedLE _).mem_iff.mp hx1
    rw [List.mem_filterMap] at hx2
    obtain ⟨cand, hc, hsc⟩ := hx2
    rw [mem_enumKeys] at hc
    exact ⟨cand, hc, hsc⟩

/-- C1: for every query verse and every positive limit, the result of
find_related_verses never contains the query verse itself, and never
contains a verse of the same chapter whose verse number lies in the
closed window from query minus 2 to query plus 2. -/
theorem findRelated_never_returns_query_or_adjacent (e : Engine) (surah ayah : Int)
    (limit : Nat) (hlim : 0 < limit) (x : ℚ × ℚ × VerseKey × Finset String)
    (hx : x ∈ find_related_verses e surah ayah limit) :
    x.2.2.1 ≠ (surah, ayah) ∧
      ¬(x.2.2.1.1 = surah ∧ ayah - 2 ≤ x.2.2.1.2 ∧ x.2.2.1.2 ≤ ayah + 2) := by
  obtain ⟨cand, hc, hsc⟩ := mem_find_related e surah ayah limit x hx
  obtain ⟨hkey, -⟩ := scoreCandidate_some e _ _ cand x hsc
  rw [hkey]
  rw [Finset.mem_sdiff, Finset.mem_erase] at hc
  obtain ⟨⟨hne, -⟩, hadj⟩ := hc
  exact ⟨hne, fun hcontra => hadj ((mem_adjacentSet surah ayah cand).mpr hcontra)⟩

/-- C4: the result of find_related_verses has at most limit entries and is
sorted by containment descending, ties broken by shared weight descending. -/
theorem findRelated_sorted_and_truncated (e : Engine) (surah ayah : Int) (limit : Nat) :
    (find_related_verses e surah ayah limit).length ≤ limit ∧
      (find_related_verses e surah ayah limit).Pairwise
        (fun a b => b.1 < a.1 ∨ (a.1 = b.1 ∧ b.2.1 ≤ a.2.1)) := by
  constructor
  · simp only [find_related_verses]
    split_ifs
    · simp
    · exact List.length_take_le _ _
  · simp only [find_related_verses]
    split_ifs
    · simp
    · exact List.Pairwise.sublist (List.take_sublist _ _)
        (List.sorted_insertionSort relatedLE _)

theorem verse_lemmas_build_empty (lg : ℚ → ℚ) (c : List Segment) (surah ayah : Int)
    (h : ∀ s ∈ c, s.chapter = surah → s.verse = ayah → getTok s.lem = none) :
    (buildEngine lg c).verse_lemmas (surah, ayah) = ∅ := by
  unfold buildEngine
  split_ifs with h1
  · rfl
  · rw [Finset.eq_empty_iff_forall_not_mem]
    intro t ht
    simp only [pairsVerseSet, Finset.mem_image, Finset.mem_filter] at ht
    obtain ⟨p, ⟨hp, hpk⟩, rfl⟩ := ht
    simp only [lemmaPairs, pairsBy, List.mem_toFinset, List.mem_filterMap] at hp
    obtain ⟨s, hs, hmap⟩ := hp
    cases hgt : getTok s.lem with
    | none => rw [hgt] at hmap; cases hmap
    | some l =>
      rw [hgt, Option.map_some'] at hmap
      injection hmap with h2
      subst h2
      simp only [Prod.mk.injEq] at hpk
      have h3 := h s hs hpk.1 hpk.2
      rw [h3] at hgt
      cases hgt

/-- C5: when the query verse has no lemma-bearing segment in the corpus,
find_related_verses on the built engine returns the empty sequence for
every limit, rather than raising an error. -/
theorem findRelated_empty_for_unprofiled_query (lg : ℚ → ℚ) (c : List Segment)
    (surah ayah : Int) (limit : Nat)
    (h : ∀ s ∈ c, s.chapter = surah → s.verse = ayah → getTok s.lem = none) :
    find_related_verses (buildEngine lg c) surah ayah limit = [] := by
  have hL := verse_lemmas_build_empty lg c surah ayah h
  simp only [find_related_verses, hL]
  simp

/-- C3: when every lemma and root IDF weight is nonnegative (as holds for
the built tables), every returned entry has containment between 0 and 1
and strictly positive shared weight, and no returned candidate has zero
shared weight or zero candidate total. -/
theorem findRelated_containment_bounds (e : Engine)
    (hL : ∀ t, 0 ≤ (e.lemma_idf t).getD 0)
    (hR : ∀ t, 0 ≤ (e.root_idf t).getD 0)
    (surah ayah : Int) (limit : Nat) (x : ℚ × ℚ × VerseKey × Finset String)
    (hx : x ∈ find_related_verses e surah ayah limit) :
    0 ≤ x.1 ∧ x.1 ≤ 1 ∧ 0 < x.2.1 ∧
      sharedWeightOf e (e.verse_lemmas (surah, ayah)) (e.verse_roots (surah, ayah))
        x.2.2.1 ≠ 0 ∧
      candTotalOf e x.2.2.1 ≠ 0 := by
  obtain ⟨cand, hc, hsc⟩ := mem_find_related e surah ayah limit x hx
  obtain ⟨hkey, hsw, hcont, hswne, hctne, -⟩ := scoreCandidate_some e _ _ cand x hsc
  have hlw : ∀ s : Finset String, 0 ≤ lemmaWeight e s :=
    fun s => Finset.sum_nonneg (fun i _ => hL i)
  have hrw : ∀ s : Finset String, 0 ≤ rootWeight e s :=
    fun s => Finset.sum_nonneg (fun i _ => hR i)
  have hsw0 : 0 ≤ sharedWeightOf e (e.verse_lemmas (surah, ayah))
      (e.verse_roots (surah, ayah)) cand := by
    unfold sharedWeightOf
    exact add_nonneg (hlw _) (mul_nonneg (by norm_num [rootDiscount]) (hrw _))
  have hct0 : 0 ≤ candTotalOf e cand := hlw _
  have hswpos : 0 < sharedWeightOf e (e.verse_lemmas (surah, ayah))
      (e.verse_roots (surah, ayah)) cand := lt_of_le_of_ne hsw0 (Ne.symm hswne)
  have hctpos : 0 < candTotalOf e cand := lt_of_le_of_ne hct0 (Ne.symm hctne)
  refine ⟨?_, ?_, ?_, ?_, ?_⟩
  · rw [hcont]
    exact le_min (div_nonneg hsw0 hct0) zero_le_one
  · rw [hcont]
    exact min_le_right _ _
  · rw [hsw]
    exact hswpos
  · rw [hkey]
    exact hswne
  · rw [hkey]
    exact hctne

/-! ### Basic facts about the boolean search pipeline -/

theorem resolveAll_eq_none (e : Engine) (terms : List TermSpec) (t : TermSpec)
    (ht : t ∈ terms) (hun : resolveTerm e t = none) : resolveAll e terms = none := by
  induction terms with
  | nil => cases ht
  | cons a ts ih =>
    rcases List.mem_cons.mp ht with rfl | hmem
    · simp [resolveAll, hun]
    · unfold resolveAll
      cases hra : resolveTerm e a with
      | none => rfl
      | some rc => rw [ih hmem]; rfl

theorem tokHit_some (inv : String → Finset VerseKey) (tok : Option String) (s : String)
    (h : tokHit inv tok = some s) : (inv s).Nonempty := by
  unfold tokHit at h
  cases hg : getTok tok with
  | none => rw [hg] at h; cases h
  | some u =>
    rw [hg] at h
    dsimp only at h
    split_ifs at h with hne
    injection h with h2
    subst h2
    exact hne

theorem resolveTerm_some_nonempty (e : Engine) (t : TermSpec) (r : ResolvedTerm)
    (s : Finset VerseKey) (h : resolveTerm e t = some (r, s)) : s.Nonempty := by
  unfold resolveTerm at h
  cases h1 : tokHit e.lemma_inv t.lemma_bw with
  | some l =>
    rw [h1] at h
    injection h with h2
    rw [show s = e.lemma_inv l from congrArg Prod.snd h2.symm]
    exact tokHit_some _ _ _ h1
  | none =>
    rw [h1] at h
    cases h2 : tokHit e.root_inv t.root_bw with
    | some rt =>
      rw [h2] at h
      injection h with h3
      rw [show s = e.root_inv rt from congrArg Prod.snd h3.symm]
      exact tokHit_some _ _ _ h2
    | none =>
      rw [h2] at h
      cases h3 : tokHit e.form_inv t.form_bw with
      | some f =>
        rw [h3] at h
        injection h with h4
        rw [show s = e.form_inv f from congrArg Prod.snd h4.symm]
        exact tokHit_some _ _ _ h3
      | none => rw [h3] at h; cases h

theorem resolveAll_ne_nil (e : Engine) (terms : List TermSpec)
    (rcs : List (ResolvedTerm × Finset VerseKey)) (hne : terms ≠ [])
    (hres : resolveAll e terms = some rcs) : rcs ≠ [] := by
  cases terms with
  | nil => cases hne rfl
  | cons a ts =>
    unfold resolveAll at hres
    cases h1 : resolveTerm e a with
    | none => rw [h1] at hres; cases hres
    | some rc =>
      rw [h1] at hres
      cases h2 : resolveAll e ts with
      | none => rw [h2] at hres; cases hres
      | some rest =>
        rw [h2] at hres
        injection hres with h3
        rw [← h3]
        exact List.cons_ne_nil rc rest

theorem resolveAll_append_single (e : Engine) (terms : List TermSpec) (t2 : TermSpec)
    (rcs : List (ResolvedTerm × Finset VerseKey)) (rc2 : ResolvedTerm × Finset VerseKey)
    (hres : resolveAll e terms = some rcs) (h2 : resolveTerm e t2 = some rc2) :
    resolveAll e (terms ++ [t2]) = some (rcs ++ [rc2]) := by
  induction terms generalizing rcs with
  | nil =>
    unfold resolveAll at hres
    injection hres with h3
    subst h3
    simp [resolveAll, h2]
  | cons a ts ih =>
    cases hra : resolveTerm e a with
    | none =>
      simp only [resolveAll, hra] at hres
      exact Option.noConfusion hres
    | some rc =>
      cases hts : resolveAll e ts with
      | none =>
        simp only [resolveAll, hra, hts, Option.map_none'] at hres
        exact Option.noConfusion hres
      | some rest =>
        simp only [resolveAll, hra, hts, Option.map_some'] at hres
        injection hres with h3
        subst h3
        simp only [List.cons_append, List.append_eq, resolveAll, hra, ih rest hts,
          Option.map_some']

theorem mem_foldl_inter (rest : List (Finset VerseKey)) (s0 : Finset VerseKey)
    (k : VerseKey) :
    k ∈ rest.foldl (fun acc x => acc ∩ x) s0 ↔ k ∈ s0 ∧ ∀ x ∈ rest, k ∈ x := by
  induction rest generalizing s0 with
  | nil => simp
  | cons a ts ih =>
    simp only [List.foldl_cons, ih, Finset.mem_inter, List.mem_cons]
    constructor
    · rintro ⟨⟨h1, h2⟩, h3⟩
      refine ⟨h1, fun x hx => ?_⟩
      rcases hx with rfl | hx
      · exact h2
      · exact h3 x hx
    · rintro ⟨h1, h2⟩
      exact ⟨⟨h1, h2 a (Or.inl rfl)⟩, fun x hx => h2 x (Or.inr hx)⟩

theorem mem_intersectAll (sets : List (Finset VerseKey)) (hne : sets ≠ [])
    (k : VerseKey) : k ∈ intersectAll sets ↔ ∀ x ∈ sets, k ∈ x := by
  cases sets with
  | nil => cases hne rfl
  | cons s0 rest =>
    simp only [intersectAll, mem_foldl_inter, List.mem_cons]
    constructor
    · rintro ⟨h1, h2⟩ x hx
      rcases hx with rfl | hx
      · exact h1
      · exact h2 x hx
    · intro h
      exact ⟨h s0 (Or.inl rfl), fun x hx => h x (Or.inr hx)⟩

theorem intersectAll_append_subset (sets : List (Finset VerseKey))
    (s2 : Finset VerseKey) (hne : sets ≠ []) :
    intersectAll (sets ++ [s2]) ⊆ intersectAll sets := by
  cases sets with
  | nil => cases hne rfl
  | cons s0 rest =>
    intro k hk
    simp only [intersectAll, List.cons_append, List.foldl_append, List.foldl_cons,
      List.foldl_nil] at hk
    exact Finset.mem_of_mem_inter_left hk

theorem postExclude_subset (s t : Finset VerseKey) (exc : Option VerseKey)
    (h : s ⊆ t) : postExclude s exc ⊆ postExclude t exc := by
  cases exc with
  | none => exact h
  | some q => exact Finset.erase_subset_erase q h

theorem search_words_total_found (e : Engine) (terms : List TermSpec) (limit : ℕ)
    (exc : Option VerseKey) (co : Bool) (rcs : List (ResolvedTerm × Finset VerseKey))
    (r : SearchResult) (hne : terms ≠ []) (hres : resolveAll e terms = some rcs)
    (hr : search_words e terms limit exc co = some r) :
    r.total_found = (postExclude (intersectAll (rcs.map Prod.snd)) exc).card := by
  simp only [search_words] at hr
  rw [if_neg hne, hres] at hr
  cases co with
  | false =>
    simp only [Bool.false_eq_true, if_false] at hr
    split_ifs at hr with hempty
    · injection hr with h2
      subst h2
      rw [hempty]
      rfl
    · injection hr with h2
      subst h2
      rfl
  | true =>
    simp only [if_true] at hr
    injection hr with h2
    subst h2
    rfl

/-- C7: if any term of the query resolves in none of the three indexes,
the search returns an empty resolved-terms list, an empty result list and
a zero total, regardless of the remaining terms, the limit, the exclusion
and the count-only flag. -/
theorem search_words_short_circuit (e : Engine) (terms : List TermSpec)
    (limit : ℕ) (query_verse : Option VerseKey) (count_only : Bool)
    (t : TermSpec) (ht : t ∈ terms) (hun : resolveTerm e t = none) :
    search_words e terms limit query_verse count_only = some ⟨[], [], 0⟩ := by
  simp only [search_words]
  rw [if_neg (by rintro rfl; cases ht), resolveAll_eq_none e terms t ht hun]

/-- C9: when every term resolves, membership in the intersected result set
means membership in every candidate set, and appending one more
resolvable term never increases the total found. -/
theorem search_words_intersection_monotone (e : Engine) (terms : List TermSpec)
    (rcs : List (ResolvedTerm × Finset VerseKey))
    (hne : terms ≠ []) (hres : resolveAll e terms = some rcs) :
    (∀ k, k ∈ intersectAll (rcs.map Prod.snd) ↔ ∀ p ∈ rcs, k ∈ p.2) ∧
      ∀ (t2 : TermSpec) (rc2 : ResolvedTerm × Finset VerseKey),
        resolveTerm e t2 = some rc2 →
        ∀ (limit limit2 : ℕ) (exc : Option VerseKey) (co co2 : Bool)
          (r r2 : SearchResult),
          search_words e terms limit exc co = some r →
          search_words e (terms ++ [t2]) limit2 exc co2 = some r2 →
          r2.total_found ≤ r.total_found := by
  have hrcs := resolveAll_ne_nil e terms rcs hne hres
  have hmapne : rcs.map Prod.snd ≠ [] := by
    intro hcontra
    exact hrcs (List.map_eq_nil_iff.mp hcontra)
  constructor
  · intro k
    rw [mem_intersectAll _ hmapne k]
    constructor
    · intro h p hp
      exact h p.2 (List.mem_map.mpr ⟨p, hp, rfl⟩)
    · intro h x hx
      obtain ⟨p, hp, rfl⟩ := List.mem_map.mp hx
      exact h p hp
  · intro t2 rc2 h2 limit limit2 exc co co2 r r2 hr hr2
    have hne2 : terms ++ [t2] ≠ [] := by
      intro hcontra
      exact hne (List.append_eq_nil.mp hcontra).1
    have hres2 := resolveAll_append_single e terms t2 rcs rc2 hres h2
    rw [search_words_total_found e terms limit exc co rcs r hne hres hr,
      search_words_total_found e (terms ++ [t2]) limit2 exc co2 (rcs ++ [rc2]) r2
        hne2 hres2 hr2]
    apply Finset.card_le_card
    apply postExclude_subset
    rw [List.map_append]
    exact intersectAll_append_subset (rcs.map Prod.snd) rc2.2 hmapne

theorem rankedKeys_spec (s : Finset VerseKey) (w : ℚ) (lim : ℕ) :
    ((((enumKeys s).map (fun k => (w, k))).insertionSort scoreLE).take lim).length
        = min lim s.card ∧
      (∀ k ∈ ((((enumKeys s).map (fun k => (w, k))).insertionSort scoreLE).take lim).map
          Prod.snd, k ∈ s) ∧
      (((((enumKeys s).map (fun k => (w, k))).insertionSort scoreLE).take lim).map
          Prod.snd).Nodup ∧
      (s.card ≤ lim →
        (((((enumKeys s).map (fun k => (w, k))).insertionSort scoreLE).take lim).map
          Prod.snd).toFinset = s) := by
  set scored := (enumKeys s).map (fun k => (w, k)) with hscored
  have hperm : (scored.insertionSort scoreLE).Perm scored := List.perm_insertionSort _ _
  have hmapsnd : scored.map Prod.snd = enumKeys s := by
    rw [hscored, List.map_map]
    exact List.map_id _
  have hlen : (scored.insertionSort scoreLE).length = s.card := by
    rw [hperm.length_eq, hscored, List.length_map, enumKeys_length]
  have hperm2 : ((scored.insertionSort scoreLE).map Prod.snd).Perm (enumKeys s) := by
    rw [← hmapsnd]
    exact hperm.map Prod.snd
  refine ⟨?_, ?_, ?_, ?_⟩
  · rw [List.length_take, hlen]
  · intro k hk
    simp only [List.mem_map] at hk
    obtain ⟨x, hx, rfl⟩ := hk
    have hx1 := List.mem_of_mem_take hx
    have hx2 := hperm.mem_iff.mp hx1
    rw [hscored, List.mem_map] at hx2
    obtain ⟨k0, hk0, rfl⟩ := hx2
    rw [mem_enumKeys] at hk0
    exact hk0
  · exact List.Nodup.sublist (List.Sublist.map Prod.snd (List.take_sublist _ _))
      (hperm2.nodup_iff.mpr (enumKeys_nodup s))
  · intro hcard
    have htake : (scored.insertionSort scoreLE).take lim = scored.insertionSort scoreLE :=
      List.take_of_length_le (by rw [hlen]; exact hcard)
    rw [htake, List.toFinset_eq_of_perm _ _ hperm2]
    apply Finset.ext
    intro a
    rw [List.mem_toFinset, mem_enumKeys]

/-- C8 amended: a single resolved term with no exclusion yields exactly
the verses of that term's inverted-index set, truncated to the clamped
limit: the total equals the full set size, the returned verses are
pairwise distinct members of the set, and when the clamped limit is at
least the set size the returned verse set is the whole index set. -/
theorem search_words_single_term_amended (e : Engine) (T : TermSpec) (limit : ℕ)
    (r : ResolvedTerm) (s : Finset VerseKey)
    (hres : resolveTerm e T = some (r, s)) (res : SearchResult)
    (hsw : search_words e [T] limit none false = some res) :
    res.terms_used = [r] ∧
      res.total_found = s.card ∧
      res.results.length = min (min (max 1 limit) 50) s.card ∧
      (∀ k ∈ res.results.map Prod.snd, k ∈ s) ∧
      (res.results.map Prod.snd).Nodup ∧
      (s.card ≤ min (max 1 limit) 50 → (res.results.map Prod.snd).toFinset = s) := by
  have hnonempty := resolveTerm_some_nonempty e T r s hres
  have hra : resolveAll e [T] = some [(r, s)] := by simp [resolveAll, hres]
  simp only [search_words] at hsw
  rw [if_neg (by simp), hra] at hsw
  simp only [List.map_cons, List.map_nil, intersectAll, List.foldl_nil, postExclude,
    Bool.false_eq_true, if_false] at hsw
  rw [if_neg (Finset.nonempty_iff_ne_empty.mp hnonempty)] at hsw
  injection hsw with h2
  subst h2
  obtain ⟨hl, hm, hn, ht⟩ := rankedKeys_spec s
    (List.foldl (fun acc rt => acc + termScore e rt) 0 [r]) (min (max 1 limit) 50)
  exact ⟨rfl, rfl, hl, hm, hn, ht⟩

/-! ### Basic facts about the index builder -/

theorem dfSpecBy_toFinset (c : List Segment) (f : Segment → Option String) (t : String) :
    ((c.filter (fun s => getTok (f s) = some t)).map
        (fun s => ((s.chapter, s.verse) : VerseKey))).toFinset
      = pairsTokenVerses (pairsBy c f) t := by
  apply Finset.ext
  intro k
  simp only [List.mem_toFinset, List.mem_map, List.mem_filter, pairsTokenVerses, pairsBy,
    Finset.mem_image, Finset.mem_filter, List.mem_filterMap, Option.map_eq_some',
    decide_eq_true_eq]
  constructor
  · rintro ⟨s, ⟨hs, hf⟩, rfl⟩
    exact ⟨((s.chapter, s.verse), t), ⟨⟨s, hs, t, hf, rfl⟩, rfl⟩, rfl⟩
  · rintro ⟨p, ⟨⟨s, hs, u, hu, hpa⟩, hpt⟩, rfl⟩
    subst hpa
    dsimp only at hpt
    subst hpt
    exact ⟨s, ⟨hs, hu⟩, rfl⟩

theorem dfLemmaSpec_eq (c : List Segment) (t : String) :
    dfLemmaSpec c t = (pairsTokenVerses (lemmaPairs c) t).card := by
  unfold dfLemmaSpec
  rw [← List.card_toFinset]
  exact congrArg Finset.card (dfSpecBy_toFinset c (fun s => s.lem) t)

theorem dfRootSpec_eq (c : List Segment) (t : String) :
    dfRootSpec c t = (pairsTokenVerses (rootPairs c) t).card := by
  unfold dfRootSpec
  rw [← List.card_toFinset]
  exact congrArg Finset.card (dfSpecBy_toFinset c (fun s => s.root) t)

theorem dfFormSpec_eq (c : List Segment) (t : String) :
    dfFormSpec c t = (pairsTokenVerses (formPairs c) t).card := by
  unfold dfFormSpec
  rw [← List.card_toFinset]
  exact congrArg Finset.card (dfSpecBy_toFinset c (fun s => s.form) t)

theorem nSpec_eq (c : List Segment) : nSpec c = totalVerses c := by
  unfold nSpec totalVerses
  rw [← List.card_toFinset]
  apply congrArg Finset.card
  apply Finset.ext
  intro k
  simp only [List.mem_toFinset, List.mem_map, List.mem_filter, Finset.mem_union,
    pairsVerses, lemmaPairs, rootPairs, pairsBy, Finset.mem_image, List.mem_filterMap,
    Option.map_eq_some', decide_eq_true_eq]
  constructor
  · rintro ⟨s, ⟨hs, hor⟩, rfl⟩
    rcases hor with h | h
    · obtain ⟨u, hu⟩ := Option.ne_none_iff_exists'.mp h
      exact Or.inl ⟨((s.chapter, s.verse), u), ⟨s, hs, u, hu, rfl⟩, rfl⟩
    · obtain ⟨u, hu⟩ := Option.ne_none_iff_exists'.mp h
      exact Or.inr ⟨((s.chapter, s.verse), u), ⟨s, hs, u, hu, rfl⟩, rfl⟩
  · rintro (⟨p, ⟨s, hs, u, hu, hpa⟩, rfl⟩ | ⟨p, ⟨s, hs, u, hu, hpa⟩, rfl⟩)
    · subst hpa
      refine ⟨s, ⟨hs, Or.inl ?_⟩, rfl⟩
      rw [hu]
      simp
    · subst hpa
      refine ⟨s, ⟨hs, Or.inr ?_⟩, rfl⟩
      rw [hu]
      simp

theorem pairsTokenVerses_card_pos (ps : Finset (VerseKey × String)) (t : String)
    (h : t ∈ pairsTokens ps) : 0 < (pairsTokenVerses ps t).card := by
  obtain ⟨p, hp, rfl⟩ := Finset.mem_image.mp h
  exact Finset.card_pos.mpr
    ⟨p.1, Finset.mem_image.mpr ⟨p, Finset.mem_filter.mpr ⟨hp, rfl⟩, rfl⟩⟩

theorem pairsTokenVerses_subset (ps : Finset (VerseKey × String)) (t : String) :
    pairsTokenVerses ps t ⊆ pairsVerses ps := by
  intro k hk
  obtain ⟨p, hp, rfl⟩ := Finset.mem_image.mp hk
  exact Finset.mem_image.mpr ⟨p, (Finset.mem_filter.mp hp).1, rfl⟩

theorem idfTable_some (lg : ℚ → ℚ) (c : List Segment)
    (ps : Finset (VerseKey × String)) (t : String) (v : ℚ)
    (h : idfTable lg c ps t = some v) :
    v = lg ((totalVerses c : ℚ) / ((pairsTokenVerses ps t).card : ℚ)) ∧
      0 < (pairsTokenVerses ps t).card := by
  unfold idfTable at h
  split_ifs at h with h1
  injection h with h2
  exact ⟨h2.symm, pairsTokenVerses_card_pos ps t h1⟩

theorem buildEngine_lemma_idf (lg : ℚ → ℚ) (c : List Segment) (t : String) (v : ℚ)
    (h : (buildEngine lg c).lemma_idf t = some v) :
    v = lg ((totalVerses c : ℚ) / ((pairsTokenVerses (lemmaPairs c) t).card : ℚ)) ∧
      0 < (pairsTokenVerses (lemmaPairs c) t).card := by
  unfold buildEngine at h
  split_ifs at h with h1
  · cases h
  · exact idfTable_some lg c (lemmaPairs c) t v h

theorem buildEngine_root_idf (lg : ℚ → ℚ) (c : List Segment) (t : String) (v : ℚ)
    (h : (buildEngine lg c).root_idf t = some v) :
    v = lg ((totalVerses c : ℚ) / ((pairsTokenVerses (rootPairs c) t).card : ℚ)) ∧
      0 < (pairsTokenVerses (rootPairs c) t).card := by
  unfold buildEngine at h
  split_ifs at h with h1
  · cases h
  · exact idfTable_some lg c (rootPairs c) t v h

theorem buildEngine_form_idf (lg : ℚ → ℚ) (c : List Segment) (t : String) (v : ℚ)
    (h : (buildEngine lg c).form_idf t = some v) :
    v = lg ((totalVerses c : ℚ) / ((pairsTokenVerses (formPairs c) t).card : ℚ)) ∧
      0 < (pairsTokenVerses (formPairs c) t).card := by
  unfold buildEngine at h
  split_ifs at h with h1
  · cases h
  · exact idfTable_some lg c (formPairs c) t v h

/-- C6: every token present in any of the three IDF tables after build has
value lg of N over df, where df, reconstructed independently from the raw
corpus, is at least 1, and N is the number of distinct verses carrying at
least one lemma or root token (the union of the two profile key sets). -/
theorem idf_tables_formula (lg : ℚ → ℚ) (c : List Segment) (t : String) :
    (∀ v, (buildEngine lg c).lemma_idf t = some v →
        v = lg ((nSpec c : ℚ) / (dfLemmaSpec c t : ℚ)) ∧ 1 ≤ dfLemmaSpec c t) ∧
      (∀ v, (buildEngine lg c).root_idf t = some v →
        v = lg ((nSpec c : ℚ) / (dfRootSpec c t : ℚ)) ∧ 1 ≤ dfRootSpec c t) ∧
      (∀ v, (buildEngine lg c).form_idf t = some v →
        v = lg ((nSpec c : ℚ) / (dfFormSpec c t : ℚ)) ∧ 1 ≤ dfFormSpec c t) := by
  refine ⟨fun v hv => ?_, fun v hv => ?_, fun v hv => ?_⟩
  · obtain ⟨hval, hpos⟩ := buildEngine_lemma_idf lg c t v hv
    rw [nSpec_eq, dfLemmaSpec_eq]
    exact ⟨hval, hpos⟩
  · obtain ⟨hval, hpos⟩ := buildEngine_root_idf lg c t v hv
    rw [nSpec_eq, dfRootSpec_eq]
    exact ⟨hval, hpos⟩
  · obtain ⟨hval, hpos⟩ := buildEngine_form_idf lg c t v hv
    rw [nSpec_eq, dfFormSpec_eq]
    exact ⟨hval, hpos⟩

/-- C10: after the build, lemma and root document frequencies never exceed
N, so whenever lg is nonnegative on arguments at least 1 (as the real
logarithm is) every lemma and root IDF entry is nonnegative; the form
table has no such guarantee, witnessed by a corpus whose form token has a
document frequency strictly above N. -/
theorem idf_nonneg_lemma_root_not_form (lg : ℚ → ℚ) (c : List Segment)
    (hlg : ∀ q : ℚ, 1 ≤ q → 0 ≤ lg q) :
    (∀ t, dfLemmaSpec c t ≤ nSpec c) ∧
      (∀ t, dfRootSpec c t ≤ nSpec c) ∧
      (∀ t v, (buildEngine lg c).lemma_idf t = some v → 0 ≤ v) ∧
      (∀ t v, (buildEngine lg c).root_idf t = some v → 0 ≤ v) ∧
      ∃ (c2 : List Segment) (t : String) (v : ℚ),
        (buildEngine lg c2).form_idf t = some v ∧
          v = lg ((nSpec c2 : ℚ) / (dfFormSpec c2 t : ℚ)) ∧
          nSpec c2 < dfFormSpec c2 t := by
  have hsubL : ∀ t, (pairsTokenVerses (lemmaPairs c) t).card ≤ totalVerses c := fun t =>
    Finset.card_le_card ((pairsTokenVerses_subset _ t).trans Finset.subset_union_left)
  have hsubR : ∀ t, (pairsTokenVerses (rootPairs c) t).card ≤ totalVerses c := fun t =>
    Finset.card_le_card ((pairsTokenVerses_subset _ t).trans Finset.subset_union_right)
  have hnn : ∀ (df n : ℕ), 0 < df → df ≤ n → 0 ≤ lg ((n : ℚ) / (df : ℚ)) := by
    intro df n hdf hle
    apply hlg
    rw [one_le_div (by exact_mod_cast hdf)]
    exact_mod_cast hle
  refine ⟨?_, ?_, ?_, ?_, toyCorpusForm, "x",
    lg ((nSpec toyCorpusForm : ℚ) / (dfFormSpec toyCorpusForm "x" : ℚ)), ?_, rfl,
    by decide⟩
  · intro t
    rw [dfLemmaSpec_eq, nSpec_eq]
    exact hsubL t
  · intro t
    rw [dfRootSpec_eq, nSpec_eq]
    exact hsubR t
  · intro t v hv
    obtain ⟨hval, hpos⟩ := buildEngine_lemma_idf lg c t v hv
    rw [hval]
    exact hnn _ _ hpos (hsubL t)
  · intro t v hv
    obtain ⟨hval, hpos⟩ := buildEngine_root_idf lg c t v hv
    rw [hval]
    exact hnn _ _ hpos (hsubR t)
  · rw [nSpec_eq, dfFormSpec_eq]
    unfold buildEngine
    rw [if_neg (by decide)]
    show idfTable lg toyCorpusForm (formPairs toyCorpusForm) "x" = _
    unfold idfTable
    rw [if_pos (by decide)]

/-! ### Concrete evaluations: counterexamples and witnesses -/

section

attribute [local semireducible] Rat.add Rat.mul Rat.inv

/-- C2 counterexample: in the toy state of the worked example the second
verse (2,256) lies inside the adjacency window of the query (2,255), so
find_related_verses suppresses it and returns nothing at all; in
particular it does not rank (2,256) with shared weight 1.2. -/
theorem findRelated_toy_example_counterexample :
    toyEngineA.lemma_idf "malik" = some (6/5 : ℚ) ∧
      toyEngineA.verse_lemmas (2, 255) = {"malik"} ∧
      toyEngineA.verse_lemmas (2, 256) = {"malik"} ∧
      toyEngineA.verse_roots (2, 255) = {"mlk"} ∧
      toyEngineA.verse_roots (2, 256) = ∅ ∧
      find_related_verses toyEngineA 2 255 10 = [] :=
  ⟨by decide, by decide, by decide, by decide, by decide, by decide⟩

/-- C2 amended: with the candidate verse moved outside the adjacency
window, here (2,260), the query (2,255) ranks it with shared weight 1.2
and containment 1.2 divided by the candidate total. -/
theorem findRelated_toy_example_amended :
    candTotalOf toyEngineB (2, 260) = (6/5 : ℚ) ∧
      find_related_verses toyEngineB 2 255 10 =
        [((6/5 : ℚ) / candTotalOf toyEngineB (2, 260), (6/5 : ℚ), (2, 260), ∅)] :=
  ⟨by decide, by decide⟩

theorem findRelated_never_returns_query_or_adjacent_witness :
    ((2 : Int), (260 : Int)) ≠ ((2 : Int), (255 : Int)) ∧
      ¬((((2 : Int), (260 : Int)) : VerseKey).1 = 2 ∧
        (255 : Int) - 2 ≤ (((2 : Int), (260 : Int)) : VerseKey).2 ∧
        (((2 : Int), (260 : Int)) : VerseKey).2 ≤ 255 + 2) :=
  findRelated_never_returns_query_or_adjacent toyEngineB 2 255 10 (by decide)
    (1, 6/5, (2, 260), ∅) (by decide)

theorem findRelated_containment_bounds_witness :
    (0 : ℚ) ≤ 1 ∧ (1 : ℚ) ≤ 1 ∧ (0 : ℚ) < 6/5 ∧
      sharedWeightOf toyEngineB (toyEngineB.verse_lemmas (2, 255))
        (toyEngineB.verse_roots (2, 255)) (2, 260) ≠ 0 ∧
      candTotalOf toyEngineB (2, 260) ≠ 0 :=
  findRelated_containment_bounds toyEngineB
    (fun t => by simp only [toyEngineB]; split_ifs <;> norm_num)
    (fun t => by simp only [toyEngineB]; split_ifs <;> norm_num)
    2 255 10 (1, 6/5, (2, 260), ∅) (by decide)

theorem findRelated_empty_for_unprofiled_query_witness :
    find_related_verses (buildEngine (fun q => q) toyCorpus) 5 5 10 = [] :=
  findRelated_empty_for_unprofiled_query (fun q => q) toyCorpus 5 5 10 (by decide)

theorem idf_tables_formula_witness :
    (1 : ℚ) = (nSpec toyCorpus : ℚ) / (dfLemmaSpec toyCorpus "a" : ℚ) ∧
      1 ≤ dfLemmaSpec toyCorpus "a" :=
  (idf_tables_formula (fun q => q) toyCorpus "a").1 1 (by decide)

theorem idf_nonneg_lemma_root_not_form_witness :
    (0 : ℚ) ≤ 0 :=
  (idf_nonneg_lemma_root_not_form (fun _ => (0 : ℚ)) toyCorpus
    (fun q hq => le_refl 0)).2.2.1 "a" 0 (by decide)

theorem search_words_short_circuit_witness :
    search_words toyEngineC [toyTerm, toyTermMissing] 25 none false = some ⟨[], [], 0⟩ :=
  search_words_short_circuit toyEngineC [toyTerm, toyTermMissing] 25 none false
    toyTermMissing (by decide) (by decide)

/-- C8 counterexample: with limit 1 and a term whose inverted-index set
holds two verses, the returned verse set is a strict subset of the index
set even though the term resolved and no exclusion was given; the total
still reports the full size 2. -/
theorem search_words_single_term_counterexample :
    resolveTerm toyEngineC toyTerm
        = some (⟨"d", SearchType.lem, "a"⟩, {(1, 1), (1, 2)}) ∧
      search_words toyEngineC [toyTerm] 1 none false
        = some ⟨[⟨"d", SearchType.lem, "a"⟩], [(0, (1, 1))], 2⟩ ∧
      ({((1 : Int), (1 : Int))} : Finset VerseKey) ≠ toyEngineC.lemma_inv "a" :=
  ⟨by decide, by decide, by decide⟩

theorem search_words_single_term_amended_witness :
    (⟨[⟨"d", SearchType.lem, "a"⟩], [(0, (1, 1)), (0, (1, 2))], 2⟩
        : SearchResult).total_found
      = ({((1 : Int), (1 : Int)), ((1 : Int), (2 : Int))} : Finset VerseKey).card :=
  (search_words_single_term_amended toyEngineC toyTerm 2 ⟨"d", SearchType.lem, "a"⟩
    {(1, 1), (1, 2)} (by decide)
    ⟨[⟨"d", SearchType.lem, "a"⟩], [(0, (1, 1)), (0, (1, 2))], 2⟩ (by decide)).2.1

theorem search_words_intersection_monotone_witness :
    (⟨[⟨"d", SearchType.lem, "a"⟩, ⟨"d", SearchType.lem, "a"⟩],
        [(0, (1, 1)), (0, (1, 2))], 2⟩ : SearchResult).total_found
      ≤ (⟨[⟨"d", SearchType.lem, "a"⟩], [(0, (1, 1)), (0, (1, 2))], 2⟩
        : SearchResult).total_found :=
  (search_words_intersection_monotone toyEngineC [toyTerm]
      [(⟨"d", SearchType.lem, "a"⟩, {(1, 1), (1, 2)})] (by decide) (by decide)).2
    toyTerm (⟨"d", SearchType.lem, "a"⟩, {(1, 1), (1, 2)}) (by decide)
    25 25 none false false
    ⟨[⟨"d", SearchType.lem, "a"⟩], [(0, (1, 1)), (0, (1, 2))], 2⟩
    ⟨[⟨"d", SearchType.lem, "a"⟩, ⟨"d", SearchType.lem, "a"⟩],
      [(0, (1, 1)), (0, (1, 2))], 2⟩
    (by decide) (by decide)

end

end QuranAnalyzer
